import Mathlib

/-
  Verification of the OctoPrint-PrintTimeGenius core against its specification.

  The embedding below translates the two source files:
    octoprint_PrintTimeGenius/__init__.py   (interpolator, live estimator,
                                             compensation engine, history store)
    octoprint_PrintTimeGenius/analyzers/analyze_progress.py
                                            (trace scan and progress-map builder)

  Conventions of the embedding:
  - Python floats are modelled as rationals (ℚ).
  - A progress-map entry [position, value] is a `Point := ℚ × ℚ`.
  - Fallible Python code is modelled in `Except PyErr`; a raised exception is
    `.error e`.  The code base targets Python 2 (`from __future__ import ...`,
    `bytes`-free string handling), so comparisons between a number and `None`
    do not raise: `None` compares below every number.  Arithmetic on `None`
    and subscripting `None` do raise, as does a missing dictionary key.
  - The `firstFilament` / `lastFilament` entries of a stored analysis can be a
    number, the JSON null (`analyze_progress.py` emits null when a trace never
    extrudes), or missing altogether (the analysis dict is merged from
    independently-run analyzers); `PyNumOpt` has the three cases.
-/

namespace PrintTimeGenius

abbrev Point := ℚ × ℚ

inductive PyErr where
  | keyError
  | typeError
  | indexError
  | zeroDivisionError
deriving DecidableEq

instance {ε α : Type} [DecidableEq ε] [DecidableEq α] : DecidableEq (Except ε α) := fun x y =>
  match x, y with
  | .error e, .error f =>
    if h : e = f then .isTrue (by rw [h]) else .isFalse (by simp [h])
  | .ok a, .ok b =>
    if h : a = b then .isTrue (by rw [h]) else .isFalse (by simp [h])
  | .error _, .ok _ => .isFalse (by simp)
  | .ok _, .error _ => .isFalse (by simp)

/-- Value found under a dict key that may be missing or JSON null. -/
inductive PyNumOpt where
  | absent
  | null
  | num (x : ℚ)
deriving DecidableEq

/-
  `bisect.bisect_right(l, [point])` from `_interpolate`.  For pair entries
  `[p, v]` the Python list comparison gives `[point] < [p, v]` iff
  `point ≤ p`, so the binary search refines on `point ≤ (l[mid])[0]`.
  The fuel argument starts at `l.length`; the window shrinks by at least one
  per step, so `l.length` steps always suffice (initial window is the whole
  list).
-/
def bisectGo (l : List Point) (x : ℚ) : ℕ → ℕ → ℕ → ℕ
  | 0, lo, _ => lo
  | fuel+1, lo, hi =>
    if lo < hi then
      let mid := (lo + hi) / 2
      if x ≤ (l.getD mid (0, 0)).1 then bisectGo l x fuel lo mid
      else bisectGo l x fuel (mid + 1) hi
    else lo

def bisect_right (l : List Point) (x : ℚ) : ℕ :=
  bisectGo l x l.length 0 l.length

/-
  `_interpolate(l, point)` (src/octoprint_PrintTimeGenius/__init__.py:18-35).
  Returns `.ok none` for the Python `None` (out of range), `.ok (some pt)` for
  a returned pair, `.error .indexError` for the `l[0]` IndexError on an empty
  list.  The componentwise blend over `zip(l[left], l[right])` on pair entries
  is the blend of the two components.
-/
def _interpolate (l : List Point) (point : ℚ) : Except PyErr (Option Point) :=
  if l = [] then .error .indexError
  else
    let p0 := l.headD (0, 0)
    let plast := l.getLastD (0, 0)
    if point < p0.1 ∨ plast.1 < point then .ok none
    else if point = p0.1 then .ok (some p0)
    else if point = plast.1 then .ok (some plast)
    else
      let right_index := bisect_right l point
      let left_index := right_index - 1
      let pl := l.getD left_index (0, 0)
      let pr := l.getD right_index (0, 0)
      let ratio := (point - pl.1) / (pr.1 - pl.1)
      .ok (some (pl.1 * (1 - ratio) + pr.1 * ratio, pl.2 * (1 - ratio) + pr.2 * ratio))

/- ------------------------------------------------------------------ -/
/- Live estimator (`GeniusEstimator`, __init__.py:37-112)              -/
/- ------------------------------------------------------------------ -/

/-- The in-progress history dict `self._current_history` of a live job. -/
structure CurrentHistory where
  firstFilamentPrintTime : Option ℚ
  lastFilamentPrintTime : Option ℚ
deriving DecidableEq

/-- The `metadata["analysis"]` dict, as consumed by the estimator and the
compensation engine. -/
structure Analysis where
  progress : List Point
  firstFilament : PyNumOpt
  lastFilament : PyNumOpt
  estimatedPrintTime : ℚ
deriving DecidableEq

/-- Mutable attributes of a `GeniusEstimator` instance. -/
structure EstimatorState where
  called_genius_yet : Bool
  current_progress_index : ℤ
  current_total_printTime : Option ℚ
  current_history : CurrentHistory
deriving DecidableEq

def initState : EstimatorState :=
  { called_genius_yet := false
    current_progress_index := -1
    current_total_printTime := none
    current_history := { firstFilamentPrintTime := none, lastFilamentPrintTime := none } }

/-
  The cursor-advance loop of `_genius_estimate` (__init__.py:70-73):
    while new+1 < len(m) and progress >= m[new+1][0]: new += 1
  The index is -1 before the map is entered and only ever increments, so
  `m.length` iterations of fuel always suffice.
-/
def advanceLoop (m : List Point) (progress : ℚ) : ℕ → ℤ → ℤ
  | 0, idx => idx
  | fuel+1, idx =>
    if 0 ≤ idx + 1 ∧ (idx + 1).toNat < m.length ∧ (m.getD (idx + 1).toNat (0, 0)).1 ≤ progress
    then advanceLoop m progress fuel (idx + 1)
    else idx

def advanceIndex (m : List Point) (progress : ℚ) (idx : ℤ) : ℤ :=
  advanceLoop m progress m.length idx

/-
  `GeniusEstimator._genius_estimate` (__init__.py:51-91).  Returns the state
  after the call (Python mutations persist even when an exception is raised
  mid-way) and either a raised exception, Python `None`, or the
  `(remaining, "genius")` pair.
  The first call forces progress to 0; `metadata` missing, `"analysis"` or
  `"progress"` missing are all collapsed into the `analysis? = none` case.
  Evaluation order follows the source: `progress > analysis["firstFilament"]`
  is evaluated before the `in`-check on the history dict (so a missing
  `firstFilament` key raises), while for `lastFilamentPrintTime` the
  `in`-check short-circuits the comparison.
-/
def geniusEstimate (analysis? : Option Analysis) (s0 : EstimatorState) (progress0 printTime : ℚ) :
    EstimatorState × Except PyErr (Option (ℚ × String)) :=
  let progress := if s0.called_genius_yet then progress0 else 0
  let s := { s0 with called_genius_yet := true }
  match analysis? with
  | none => (s, .ok none)
  | some a =>
    let m := a.progress
    let newIdx := advanceIndex m progress s.current_progress_index
    if newIdx < 0 then (s, .ok none)
    else if newIdx = s.current_progress_index then
      match s.current_total_printTime with
      | none => (s, .error .typeError)
      | some tot => (s, .ok (some (tot - printTime, "genius")))
    else
      if a.firstFilament = .absent then (s, .error .keyError)
      else
        let firstCond : Bool :=
          match a.firstFilament with
          | .null => true
          | .num x => decide (x < progress)
          | .absent => false
        let s1 := { s with current_history :=
          { s.current_history with firstFilamentPrintTime :=
              (if firstCond ∧ s.current_history.firstFilamentPrintTime = none then some printTime
               else s.current_history.firstFilamentPrintTime) } }
        let lastUpd : Except PyErr Bool :=
          if s1.current_history.lastFilamentPrintTime = none then .ok true
          else match a.lastFilament with
            | .absent => .error .keyError
            | .null => .ok false
            | .num lf => .ok (decide (progress ≤ lf))
        match lastUpd with
        | .error e => (s1, .error e)
        | .ok b =>
          let s2 := { s1 with current_history :=
            { s1.current_history with lastFilamentPrintTime :=
                (if b then some printTime else s1.current_history.lastFilamentPrintTime) } }
          match _interpolate m progress with
          | .error e => (s2, .error e)
          | .ok none => (s2, .ok none)
          | .ok (some pt) =>
            let s3 := { s2 with current_total_printTime := some (pt.2 + printTime),
                                current_progress_index := newIdx }
            (s3, .ok (some (pt.2 + printTime - printTime, "genius")))

/-
  `GeniusEstimator.estimate` (__init__.py:93-112): the default (baseline)
  estimator result is an opaque input; any exception from `_genius_estimate`
  is caught and the default result reported, and a falsy (`None`) genius
  result also falls back to the default.
-/
def estimate (analysis? : Option Analysis) (s : EstimatorState) (progress printTime : ℚ)
    (default_result : Option (ℚ × String)) : EstimatorState × Option (ℚ × String) :=
  match geniusEstimate analysis? s progress printTime with
  | (s', .error _) => (s', default_result)
  | (s', .ok none) => (s', default_result)
  | (s', .ok (some g)) => (s', some g)

/-- Feed a sequence of `(progress, printTime)` ticks through `estimate`. -/
def runTicks (analysis? : Option Analysis) (default_result : Option (ℚ × String))
    (s : EstimatorState) (ticks : List (ℚ × ℚ)) : EstimatorState :=
  ticks.foldl (fun st pt => (estimate analysis? st pt.1 pt.2 default_result).1) s

/- ------------------------------------------------------------------ -/
/- Compensation engine (`GeniusAnalysisQueue.compensate_analysis`,     -/
/- __init__.py:120-174) and history store (`on_event`, 251-278)        -/
/- ------------------------------------------------------------------ -/

/-- One completed-print entry of the persisted `print_history` list, with all
the fields the compensation engine reads present.  `payloadTime` is
`ph["payload"]["time"]`, the actual total duration of that print. -/
structure HistoryRecord where
  firstFilamentPrintTime : ℚ
  lastFilamentPrintTime : ℚ
  payloadTime : ℚ
  timestamp : ℚ
  analysisPrintTime : ℚ
  analysisFirstFilamentPrintTime : ℚ
  analysisLastFilamentPrintTime : ℚ
deriving DecidableEq

/-- Python `/` on floats: raises ZeroDivisionError on a zero divisor. -/
def pydiv (a b : ℚ) : Except PyErr ℚ :=
  if b = 0 then .error .zeroDivisionError else .ok (a / b)

/-
  The point-rewriting loop of `compensate_analysis` (__init__.py:159-168):
  `continue` on `p[0] < analysis["firstFilament"]`, `break` on
  `p[0] >= analysis["lastFilament"]`, else append the rewritten point.
  Under Python 2 a number never compares below `None` (so a null
  `firstFilament` skips nothing) and always compares `>=` a `None`
  `lastFilament` (immediate break); a missing key raises.
-/
def compensateLoop (ff lf : PyNumOpt) (tailRem factor cd : ℚ) :
    List Point → Except PyErr (List Point)
  | [] => .ok []
  | p :: rest =>
    if ff = .absent then .error .keyError
    else
      let skip : Bool :=
        match ff with
        | .null => false
        | .num f => decide (p.1 < f)
        | .absent => false
      if skip then compensateLoop ff lf tailRem factor cd rest
      else if lf = .absent then .error .keyError
      else
        let brk : Bool :=
          match lf with
          | .null => true
          | .num lv => decide (lv ≤ p.1)
          | .absent => true
        if brk then .ok []
        else
          match compensateLoop ff lf tailRem factor cd rest with
          | .error e => .error e
          | .ok acc => .ok ((p.1, (p.2 - tailRem) * factor + cd) :: acc)

/-
  Body of `compensate_analysis` up to the in-place mutation, as an
  `Except`-valued transform.  The settings checks (`has`/falsy history)
  are the empty-history case.  All list comprehensions and the averages
  are pure except the scale factors, whose divisions can raise.
-/
def compensateCore (a : Analysis) (print_history : List HistoryRecord) :
    Except PyErr Analysis :=
  if print_history = [] then .ok a
  else
    let n : ℚ := (print_history.length : ℚ)
    let average_heat_up_time :=
      (print_history.map (fun ph => ph.firstFilamentPrintTime)).sum / n
    let average_cool_down_time :=
      (print_history.map (fun ph => ph.payloadTime - ph.lastFilamentPrintTime)).sum / n
    match print_history.mapM (fun ph =>
        pydiv (ph.lastFilamentPrintTime - ph.firstFilamentPrintTime)
          (ph.analysisLastFilamentPrintTime - ph.analysisFirstFilamentPrintTime)) with
    | .error e => .error e
    | .ok print_time_factor =>
      let average_print_time_factor := print_time_factor.sum / n
      let tailE : Except PyErr ℚ :=
        match a.lastFilament with
        | .absent => .error .keyError
        | .null => if a.progress = [] then .error .indexError else .error .typeError
        | .num lv =>
          match _interpolate a.progress lv with
          | .error e => .error e
          | .ok none => .error .typeError
          | .ok (some pt) => .ok pt.2
      match tailE with
      | .error e => .error e
      | .ok last_filament_remaining_time =>
        match compensateLoop a.firstFilament a.lastFilament last_filament_remaining_time
            average_print_time_factor average_cool_down_time a.progress with
        | .error e => .error e
        | .ok new_progress =>
          match new_progress with
          | [] => .error .indexError
          | q :: qs =>
            let newVal0 := q.2 + average_heat_up_time
            .ok { a with
                  progress := ((0 : ℚ), newVal0) :: (q :: qs) ++ [((1 : ℚ), (0 : ℚ))],
                  estimatedPrintTime := newVal0 }

/-
  `compensate_analysis` itself: the whole body is wrapped in
  `try: ... except Exception: logger.warning(...)`, and no mutation of the
  analysis happens before the final two assignments, so a raised exception
  leaves the analysis exactly as it was.
-/
def compensate_analysis (a : Analysis) (print_history : List HistoryRecord) : Analysis :=
  match compensateCore a print_history with
  | .ok a' => a'
  | .error _ => a

/-- Comparison used by `print_history.sort(key=lambda x: x["timestamp"],
reverse=True)`: stable descending order by timestamp. -/
def histLe (a b : HistoryRecord) : Bool :=
  decide (b.timestamp ≤ a.timestamp)

/-
  The history-store update of `on_event` for a `PrintDone` event
  (__init__.py:272-277): append the finished record, re-sort by timestamp
  most-recent-first, truncate to `MAX_HISTORY_ITEMS = 5`.
-/
def onPrintDone (print_history : List HistoryRecord) (newRecord : HistoryRecord) :
    List HistoryRecord :=
  ((print_history ++ [newRecord]).mergeSort histLe).take 5

/- ------------------------------------------------------------------ -/
/- Trace scan and progress-map builder (analyze_progress.py:35-69)     -/
/- ------------------------------------------------------------------ -/

/-- One `Progress:<pos>,<filament>,<time>` trace sample. -/
structure Sample where
  filepos : ℚ
  filament : ℚ
  time : ℚ
deriving DecidableEq

/-- State of the parsing loop over trace lines. -/
structure ScanState where
  first_filament : Option ℚ
  last_filament : Option ℚ
  max_filament : Option ℚ
  progressPairs : List (ℚ × ℚ)
deriving DecidableEq

/-- Python truthiness test applied to `first_filament` / `max_filament`:
falsy when the variable is still `None` or holds the float `0.0`. -/
def pyFalsy (o : Option ℚ) : Bool :=
  match o with
  | none => true
  | some x => decide (x = 0)

/-
  Loop body for one `Progress:` line (analyze_progress.py:46-51):
    if filament > 0 and not first_filament: first_filament = filepos
    if not max_filament or filament > max_filament:
        last_filament = filepos; max_filament = filament
    progress.append([filepos, time])
  The `or` short-circuits, so `filament > max_filament` is only evaluated
  when `max_filament` is truthy.
-/
def scanStep (st : ScanState) (s : Sample) : ScanState :=
  let st1 :=
    if decide (0 < s.filament) && pyFalsy st.first_filament then
      { st with first_filament := some s.filepos }
    else st
  let st2 :=
    if pyFalsy st1.max_filament ||
        (match st1.max_filament with
         | none => false
         | some mx => decide (mx < s.filament)) then
      { st1 with last_filament := some s.filepos, max_filament := some s.filament }
    else st1
  { st2 with progressPairs := st2.progressPairs ++ [(s.filepos, s.time)] }

def scanSamples (samples : List Sample) : ScanState :=
  samples.foldl scanStep
    { first_filament := none, last_filament := none, max_filament := none, progressPairs := [] }

/-
  The density filter of the builder (analyze_progress.py:58-67): walk the
  `[filepos, time]` pairs, emitting `[filepos, total - time]` when
  `most_recent_progress + 60 < time` (with `-inf` as the initial value, so
  the first sample always passes) or the position equals `first_filament`
  or `last_filament`; `most_recent_progress` is updated only on emission.
  A `==` against a `None` filament position is simply false.
-/
def buildLoop (total : ℚ) (ff lf : Option ℚ) : Option ℚ → List (ℚ × ℚ) → List Point
  | _, [] => []
  | mrp, (pos, t) :: rest =>
    if (match mrp with
        | none => true
        | some m => decide (m + 60 < t)) || decide (some pos = ff) || decide (some pos = lf)
    then (pos, total - t) :: buildLoop total ff lf (some t) rest
    else buildLoop total ff lf mrp rest

/-- Result object printed by `analyze_progress.py` (the keys the spec
covers; auxiliary `Analysis:` metadata lines are merged JSON, out of scope). -/
structure AnalyzeResult where
  firstFilament : Option ℚ
  lastFilament : Option ℚ
  progress : List Point
  estimatedPrintTime : ℚ
deriving DecidableEq

/-
  `main` of analyze_progress.py after parsing (lines 55-69):
  `total_time = progress[-1][1]` raises IndexError when the trace had no
  `Progress:` lines; otherwise the output map is `[0, total_time]`, the
  filtered samples, then `[1, 0]`.
-/
def analyzeMain (samples : List Sample) : Except PyErr AnalyzeResult :=
  let st := scanSamples samples
  match st.progressPairs.getLast? with
  | none => .error .indexError
  | some lastPair =>
    let total_time := lastPair.2
    .ok { firstFilament := st.first_filament
          lastFilament := st.last_filament
          progress := ((0 : ℚ), total_time) ::
            buildLoop total_time st.first_filament st.last_filament none st.progressPairs ++
            [((1 : ℚ), (0 : ℚ))]
          estimatedPrintTime := total_time }

/- ------------------------------------------------------------------ -/
/- Claim-side (specification-worded) definitions, for comparison       -/
/- ------------------------------------------------------------------ -/

/-- Spec 4.3: `avgHeatUp`, the arithmetic mean of the recorded heat-up
times `record.firstFilamentPrintTime`. -/
def avgHeatUp (h : List HistoryRecord) : ℚ :=
  (h.map (fun r => r.firstFilamentPrintTime)).sum / (h.length : ℚ)

/-- Spec 4.3: `avgCoolDown`, the mean of
`record.payload.actualTotalTime - record.lastFilamentPrintTime`. -/
def avgCoolDown (h : List HistoryRecord) : ℚ :=
  (h.map (fun r => r.payloadTime - r.lastFilamentPrintTime)).sum / (h.length : ℚ)

/-- Spec 4.3: `avgScale`, the mean of actual over analyzed mid-print
duration. -/
def avgScale (h : List HistoryRecord) : ℚ :=
  (h.map (fun r =>
    (r.lastFilamentPrintTime - r.firstFilamentPrintTime) /
      (r.analysisLastFilamentPrintTime - r.analysisFirstFilamentPrintTime))).sum / (h.length : ℚ)

/-- The rewritten progress map exactly as claim C1 words it: keep the
original points with `f ≤ position < l` rewritten by
`(value - tailRemaining) * avgScale + avgCoolDown`, prepend
`(0, firstKeptValue + avgHeatUp)`, append `(1, 0)`. -/
def claimNewProgress (mapOrig : List Point) (h : List HistoryRecord)
    (f l tailRemaining : ℚ) : List Point :=
  let kept := (mapOrig.filter (fun p => decide (f ≤ p.1 ∧ p.1 < l))).map
    (fun p => (p.1, (p.2 - tailRemaining) * avgScale h + avgCoolDown h))
  ((0 : ℚ), (kept.headD ((0 : ℚ), (0 : ℚ))).2 + avgHeatUp h) :: kept ++ [((1 : ℚ), (0 : ℚ))]

/-- The emission filter exactly as claim C5 (amended) words it: a sample is
emitted iff strictly more than 60 seconds of elapsed time have passed since
the last emitted sample, or its position equals a calibration position. -/
def specEmit (ff lf : Option ℚ) : Option ℚ → List (ℚ × ℚ) → List (ℚ × ℚ)
  | _, [] => []
  | lastT, (pos, t) :: rest =>
    if (match lastT with
        | none => true
        | some m => decide (60 < t - m)) || decide (some pos = ff) || decide (some pos = lf)
    then (pos, t) :: specEmit ff lf (some t) rest
    else specEmit ff lf lastT rest

/- ------------------------------------------------------------------ -/
/- Notation helpers and concrete inputs used by the theorems below     -/
/- ------------------------------------------------------------------ -/

/-- Position stored at index `i` of a map (0 when out of bounds). -/
abbrev posD (l : List Point) (i : ℕ) : ℚ := (l.getD i (0, 0)).1

/-- The ProgressMap invariant of spec section 3: strictly increasing
positions. -/
def StrictPos (l : List Point) : Prop :=
  l.Pairwise (fun p q => p.1 < q.1)

/-- The componentwise linear blend of claim C7: ratio
`(x - left.position) / (right.position - left.position)` applied to both
fields. -/
def blend (pl pr : Point) (x : ℚ) : Point :=
  let ratio := (x - pl.1) / (pr.1 - pl.1)
  (pl.1 * (1 - ratio) + pr.1 * ratio, pl.2 * (1 - ratio) + pr.2 * ratio)

/-- `total_time` of a trace: elapsed time of its final sample. -/
def totalOf (samples : List Sample) : ℚ :=
  ((scanSamples samples).progressPairs.getLastD (0, 0)).2

/-- A well-formed history record with a nonzero analyzed mid-print
duration (70 - 20 = 50): actual heat-up 10, actual mid-print 100,
actual cool-down 130 - 110 = 20. -/
def recGood : HistoryRecord :=
  { firstFilamentPrintTime := 10, lastFilamentPrintTime := 110, payloadTime := 130,
    timestamp := 0, analysisPrintTime := 100,
    analysisFirstFilamentPrintTime := 20, analysisLastFilamentPrintTime := 70 }

/-- A history record whose analyzed mid-print duration is zero
(`analysisLastFilamentPrintTime = analysisFirstFilamentPrintTime = 10`). -/
def recDegenerate : HistoryRecord :=
  { firstFilamentPrintTime := 10, lastFilamentPrintTime := 20, payloadTime := 120,
    timestamp := 0, analysisPrintTime := 100,
    analysisFirstFilamentPrintTime := 10, analysisLastFilamentPrintTime := 10 }

/-- Four-point analysis whose map contains both calibration knots. -/
def analysisQuad : Analysis :=
  { progress := [(0, 100), (1/4, 75), (3/4, 25), (1, 0)],
    firstFilament := .num (1/4), lastFilament := .num (3/4), estimatedPrintTime := 100 }

/-- Analysis whose two calibration positions coincide (both 1/2, a map
knot). -/
def analysisPinch : Analysis :=
  { progress := [(0, 100), (1/2, 50), (1, 0)],
    firstFilament := .num (1/2), lastFilament := .num (1/2), estimatedPrintTime := 100 }

/-- Analysis dict that has a progress map but no `firstFilament` key. -/
def analysisNoFF : Analysis :=
  { progress := [(0, 100), (1, 0)],
    firstFilament := .absent, lastFilament := .num (9/10), estimatedPrintTime := 100 }

/-- Three-point analysis used for the estimator tick scenarios. -/
def analysisTri : Analysis :=
  { progress := [(0, 100), (1/2, 50), (1, 0)],
    firstFilament := .num (1/10), lastFilament := .num (9/10), estimatedPrintTime := 100 }

/-- Two-point analysis used for the negative-remaining-time scenario. -/
def analysisDuo : Analysis :=
  { progress := [(0, 100), (1, 0)],
    firstFilament := .num (1/10), lastFilament := .num (9/10), estimatedPrintTime := 100 }

/- ================================================================== -/
/- Theorems                                                            -/
/- ================================================================== -/

/- Helper lemmas about list positions. -/

theorem posD_eq_get (l : List Point) (i : ℕ) (h : i < l.length) :
    posD l i = (l.get ⟨i, h⟩).1 := by
  simp [posD, List.getD_eq_getElem?_getD, List.getElem?_eq_getElem h, List.get_eq_getElem]

theorem getLastD_eq_getD (l : List Point) (h : l ≠ []) :
    l.getLastD (0, 0) = l.getD (l.length - 1) (0, 0) := by
  have h1 : l.getLast? = some (l.getLast h) := List.getLast?_eq_getLast l h
  have h2 : l.getLast h = l.get ⟨l.length - 1, by
      have := List.length_pos.mpr h; omega⟩ := List.getLast_eq_get l h
  have h3 : l.length - 1 < l.length := by have := List.length_pos.mpr h; omega
  simp [List.getLastD_eq_getLast?, h1, h2, List.getD_eq_getElem?_getD,
    List.getElem?_eq_getElem h3, List.get_eq_getElem]

theorem strictPos_posD_lt {l : List Point} (hs : StrictPos l) {i j : ℕ}
    (hij : i < j) (hj : j < l.length) : posD l i < posD l j := by
  have hi : i < l.length := by omega
  rw [posD_eq_get l i hi, posD_eq_get l j hj]
  exact List.pairwise_iff_get.mp hs ⟨i, hi⟩ ⟨j, hj⟩ hij

theorem strictPos_posD_le {l : List Point} (hs : StrictPos l) {i j : ℕ}
    (hij : i ≤ j) (hj : j < l.length) : posD l i ≤ posD l j := by
  rcases Nat.lt_or_ge i j with h | h
  · exact le_of_lt (strictPos_posD_lt hs h hj)
  · have : i = j := by omega
    rw [this]

/- Correctness of the embedded `bisect.bisect_right`: the result is
sandwiched by the two search invariants. -/

theorem bisectGo_invariant (l : List Point) (x : ℚ) :
    ∀ (fuel lo hi : ℕ), lo ≤ hi → hi ≤ l.length → hi - lo ≤ fuel →
    (0 < lo → ¬ x ≤ posD l (lo - 1)) → (hi < l.length → x ≤ posD l hi) →
    lo ≤ bisectGo l x fuel lo hi ∧ bisectGo l x fuel lo hi ≤ hi ∧
      (0 < bisectGo l x fuel lo hi → ¬ x ≤ posD l (bisectGo l x fuel lo hi - 1)) ∧
      (bisectGo l x fuel lo hi < l.length → x ≤ posD l (bisectGo l x fuel lo hi)) := by
  intro fuel
  induction fuel with
  | zero =>
    intro lo hi h1 h2 h3 h4 h5
    have heq : lo = hi := by omega
    subst heq
    simp only [bisectGo]
    exact ⟨le_refl _, le_refl _, h4, h5⟩
  | succ fuel ih =>
    intro lo hi h1 h2 h3 h4 h5
    by_cases hlt : lo < hi
    · have hm1 : lo ≤ (lo + hi) / 2 := by omega
      have hm2 : (lo + hi) / 2 < hi := by omega
      by_cases hc : x ≤ posD l ((lo + hi) / 2)
      · have hstep : bisectGo l x (fuel + 1) lo hi = bisectGo l x fuel lo ((lo + hi) / 2) := by
          simp only [bisectGo, if_pos hlt]
          rw [if_pos hc]
        rw [hstep]
        obtain ⟨ha, hb, hi1, hi2⟩ := ih lo ((lo + hi) / 2) hm1 (by omega) (by omega) h4 (fun _ => hc)
        exact ⟨ha, by omega, hi1, hi2⟩
      · have hstep : bisectGo l x (fuel + 1) lo hi = bisectGo l x fuel ((lo + hi) / 2 + 1) hi := by
          simp only [bisectGo, if_pos hlt]
          rw [if_neg hc]
        rw [hstep]
        obtain ⟨ha, hb, hi1, hi2⟩ := ih ((lo + hi) / 2 + 1) hi (by omega) h2 (by omega)
          (fun _ => by simpa using hc) h5
        exact ⟨by omega, hb, hi1, hi2⟩
    · have heq : lo = hi := by omega
      subst heq
      simp only [bisectGo, if_neg hlt]
      exact ⟨le_refl _, le_refl _, h4, h5⟩

theorem bisect_right_invariant (l : List Point) (x : ℚ) :
    bisect_right l x ≤ l.length ∧
      (0 < bisect_right l x → posD l (bisect_right l x - 1) < x) ∧
      (bisect_right l x < l.length → x ≤ posD l (bisect_right l x)) := by
  have h := bisectGo_invariant l x l.length 0 l.length (by omega) (le_refl _) (by omega)
    (by omega) (by omega)
  refine ⟨h.2.1, fun hr => ?_, h.2.2.2⟩
  exact lt_of_not_le (h.2.2.1 hr)

/-- For an in-range, non-endpoint query on a strictly increasing map the
search lands strictly inside the index range. -/
theorem bisect_right_interior (l : List Point) (x : ℚ)
    (hlo : posD l 0 < x) (hhi : x ≤ posD l (l.length - 1)) (hlen : 1 ≤ l.length) :
    1 ≤ bisect_right l x ∧ bisect_right l x < l.length := by
  obtain ⟨hle, hleft, hright⟩ := bisect_right_invariant l x
  constructor
  · by_contra hr
    have hr0 : bisect_right l x = 0 := by omega
    have := hright (by omega)
    rw [hr0] at this
    exact absurd this (not_le.mpr hlo)
  · by_contra hr
    have hrl : bisect_right l x = l.length := by omega
    have := hleft (by omega)
    rw [hrl] at this
    exact absurd hhi (not_le.mpr this)

theorem getD_eq_get (l : List Point) (i : ℕ) (h : i < l.length) :
    l.getD i (0, 0) = l.get ⟨i, h⟩ := by
  simp [List.getD_eq_getElem?_getD, List.getElem?_eq_getElem h, List.get_eq_getElem]

/-- Querying `_interpolate` at the position of any knot of a strictly
increasing map returns that knot exactly. -/
theorem interpolate_mem (l : List Point) (hs : StrictPos l) (pt : Point) (hmem : pt ∈ l) :
    _interpolate l pt.1 = .ok (some pt) := by
  obtain ⟨⟨k, hk⟩, hget⟩ := List.mem_iff_get.mp hmem
  cases l with
  | nil => cases hmem
  | cons p0 rest =>
    have hn : 0 < (p0 :: rest).length := by simp
    have hget0 : (p0 :: rest).get ⟨0, hn⟩ = p0 := rfl
    have hp00 : posD (p0 :: rest) 0 = p0.1 := by rw [posD_eq_get _ 0 hn, hget0]
    have hkpos : posD (p0 :: rest) k = pt.1 := by rw [posD_eq_get _ k hk, hget]
    have hlast : (p0 :: rest).getLastD (0, 0) =
        (p0 :: rest).getD ((p0 :: rest).length - 1) (0, 0) :=
      getLastD_eq_getD _ (by simp)
    have hlastpos : ((p0 :: rest).getLastD (0, 0)).1 =
        posD (p0 :: rest) ((p0 :: rest).length - 1) := by
      rw [hlast]
    have hle0 : p0.1 ≤ pt.1 := by
      rw [← hp00, ← hkpos]; exact strictPos_posD_le hs (Nat.zero_le k) hk
    have hlelast : pt.1 ≤ posD (p0 :: rest) ((p0 :: rest).length - 1) := by
      rw [← hkpos]; exact strictPos_posD_le hs (by omega) (by omega)
    have hguard : ¬ (pt.1 < p0.1 ∨ ((p0 :: rest).getLastD (0, 0)).1 < pt.1) := by
      rw [hlastpos]; push_neg; exact ⟨hle0, hlelast⟩
    simp only [_interpolate, List.headD_cons]
    rw [if_neg (List.cons_ne_nil _ _), if_neg hguard]
    by_cases hk0 : k = 0
    · have hpt : pt = p0 := by rw [← hget]; subst hk0; exact hget0
      subst hpt
      rw [if_pos rfl]
    · have hne0 : pt.1 ≠ p0.1 := by
        rw [← hkpos, ← hp00]
        exact (strictPos_posD_lt hs (by omega) hk).ne'
      rw [if_neg hne0]
      by_cases hklast : k = (p0 :: rest).length - 1
      · subst hklast
        have hpt : (p0 :: rest).getLastD (0, 0) = pt := by
          rw [hlast, getD_eq_get _ _ (by omega)]
          exact hget
        rw [if_pos (by rw [hpt])]
        rw [hpt]
      · have hhi2 : pt.1 < posD (p0 :: rest) ((p0 :: rest).length - 1) := by
          rw [← hkpos]
          exact strictPos_posD_lt hs (by omega) (by omega)
        have hlo : posD (p0 :: rest) 0 < pt.1 := by
          rw [← hkpos]; exact strictPos_posD_lt hs (by omega) hk
        have hnelast : pt.1 ≠ ((p0 :: rest).getLastD (0, 0)).1 := by
          rw [hlastpos]; exact ne_of_lt hhi2
        rw [if_neg hnelast]
        obtain ⟨hr1, hr2⟩ := bisect_right_interior (p0 :: rest) pt.1 hlo (le_of_lt hhi2) (by simp)
        obtain ⟨hle, hleft, hright⟩ := bisect_right_invariant (p0 :: rest) pt.1
        have hrek : bisect_right (p0 :: rest) pt.1 = k := by
          by_contra hrk
        -- r < k and k < r both contradict the search invariants
          rcases Nat.lt_or_ge (bisect_right (p0 :: rest) pt.1) k with hlt2 | hge
          · have ha := hright (by omega)
            have hb := strictPos_posD_lt hs hlt2 hk
            rw [hkpos] at hb
            linarith
          · have hgt : k < bisect_right (p0 :: rest) pt.1 := by omega
            have ha := hleft (by omega)
            have hb := strictPos_posD_le hs (show k ≤ bisect_right (p0 :: rest) pt.1 - 1 by omega)
              (by omega)
            rw [hkpos] at hb
            linarith
        rw [hrek]
        have hpr : (p0 :: rest).getD k (0, 0) = pt := by rw [getD_eq_get _ _ hk, hget]
        have hplpos : posD (p0 :: rest) (k - 1) < pt.1 := by
          rw [← hkpos]; exact strictPos_posD_lt hs (by omega) hk
        rw [hpr]
        have hratio : (pt.1 - ((p0 :: rest).getD (k - 1) (0, 0)).1) /
            (pt.1 - ((p0 :: rest).getD (k - 1) (0, 0)).1) = 1 := by
          refine div_self ?_
          have : ((p0 :: rest).getD (k - 1) (0, 0)).1 < pt.1 := hplpos
          linarith
        rw [hratio]
        have h1 : ((p0 :: rest).getD (k - 1) (0, 0)).1 * (1 - 1) + pt.1 * 1 = pt.1 := by ring
        have h2 : ((p0 :: rest).getD (k - 1) (0, 0)).2 * (1 - 1) + pt.2 * 1 = pt.2 := by ring
        rw [h1, h2]

/-- Querying `_interpolate` strictly between two adjacent knots of a
strictly increasing map returns the linear blend of that pair. -/
theorem interpolate_bracket (l : List Point) (x : ℚ) (hs : StrictPos l)
    (hlo : posD l 0 < x) (hhi : x < posD l (l.length - 1))
    (i : ℕ) (hi1 : i + 1 < l.length)
    (hli : (l.get ⟨i, by omega⟩).1 < x) (hri : x < (l.get ⟨i + 1, hi1⟩).1) :
    _interpolate l x = .ok (some (blend (l.get ⟨i, by omega⟩) (l.get ⟨i + 1, hi1⟩) x)) := by
  cases l with
  | nil => simp at hi1
  | cons p0 rest =>
    have hn : 0 < (p0 :: rest).length := by simp
    have hipos : posD (p0 :: rest) i = ((p0 :: rest).get ⟨i, by omega⟩).1 :=
      posD_eq_get _ i (by omega)
    have hi1pos : posD (p0 :: rest) (i + 1) = ((p0 :: rest).get ⟨i + 1, hi1⟩).1 :=
      posD_eq_get _ (i + 1) hi1
    have hget0 : (p0 :: rest).get ⟨0, hn⟩ = p0 := rfl
    have hp00 : posD (p0 :: rest) 0 = p0.1 := by rw [posD_eq_get _ 0 hn, hget0]
    have hlast : (p0 :: rest).getLastD (0, 0) =
        (p0 :: rest).getD ((p0 :: rest).length - 1) (0, 0) :=
      getLastD_eq_getD _ (by simp)
    have hlastpos : ((p0 :: rest).getLastD (0, 0)).1 =
        posD (p0 :: rest) ((p0 :: rest).length - 1) := by
      rw [hlast]
    have hguard : ¬ (x < p0.1 ∨ ((p0 :: rest).getLastD (0, 0)).1 < x) := by
      rw [hlastpos]
      push_neg
      constructor
      · have h1 : posD (p0 :: rest) 0 ≤ posD (p0 :: rest) i :=
          strictPos_posD_le hs (Nat.zero_le i) (by omega)
        rw [hp00] at h1
        rw [hipos] at h1
        linarith
      · linarith
    have hne0 : x ≠ p0.1 := by
      have h1 : posD (p0 :: rest) 0 ≤ posD (p0 :: rest) i :=
        strictPos_posD_le hs (Nat.zero_le i) (by omega)
      rw [hp00, hipos] at h1
      exact (lt_of_le_of_lt h1 hli).ne'
    have hnelast : x ≠ ((p0 :: rest).getLastD (0, 0)).1 := by
      rw [hlastpos]; exact ne_of_lt hhi
    simp only [_interpolate, List.headD_cons]
    rw [if_neg (List.cons_ne_nil _ _), if_neg hguard, if_neg hne0, if_neg hnelast]
    obtain ⟨hr1, hr2⟩ := bisect_right_interior (p0 :: rest) x hlo (le_of_lt hhi) (by simp)
    obtain ⟨hle, hleft, hright⟩ := bisect_right_invariant (p0 :: rest) x
    have hrek : bisect_right (p0 :: rest) x = i + 1 := by
      by_contra hrk
      rcases Nat.lt_or_ge (bisect_right (p0 :: rest) x) (i + 1) with hlt2 | hge
      · have ha := hright (by omega)
        have hb : posD (p0 :: rest) (bisect_right (p0 :: rest) x) ≤ posD (p0 :: rest) i :=
          strictPos_posD_le hs (by omega) (by omega)
        rw [hipos] at hb
        linarith
      · have ha := hleft (by omega)
        have hb : posD (p0 :: rest) (i + 1) ≤
            posD (p0 :: rest) (bisect_right (p0 :: rest) x - 1) :=
          strictPos_posD_le hs (by omega) (by omega)
        rw [hi1pos] at hb
        linarith
    rw [hrek]
    have hpl : (p0 :: rest).getD (i + 1 - 1) (0, 0) = (p0 :: rest).get ⟨i, by omega⟩ := by
      rw [show i + 1 - 1 = i from rfl, getD_eq_get _ _ (by omega)]
    have hpr : (p0 :: rest).getD (i + 1) (0, 0) = (p0 :: rest).get ⟨i + 1, hi1⟩ :=
      getD_eq_get _ _ hi1
    rw [hpl, hpr]
    rfl

/-- C7: for a strictly increasing map of at least two points and a query
strictly inside the position range, a query equal to a knot position
returns that knot exactly, and any other query returns the componentwise
linear blend of the unique bracketing adjacent pair at ratio
`(x - left.position) / (right.position - left.position)`. -/
theorem interpolate_interior_spec (l : List Point) (x : ℚ) (hs : StrictPos l)
    (hlen : 2 ≤ l.length) (hlo : posD l 0 < x) (hhi : x < posD l (l.length - 1)) :
    (∀ pt ∈ l, pt.1 = x → _interpolate l x = .ok (some pt)) ∧
    (∀ (i : ℕ) (hi1 : i + 1 < l.length),
      (l.get ⟨i, by omega⟩).1 < x → x < (l.get ⟨i + 1, hi1⟩).1 →
      _interpolate l x = .ok (some (blend (l.get ⟨i, by omega⟩) (l.get ⟨i + 1, hi1⟩) x))) := by
  constructor
  · intro pt hmem hx
    rw [← hx]
    exact interpolate_mem l hs pt hmem
  · intro i hi1 h1 h2
    exact interpolate_bracket l x hs hlo hhi i hi1 h1 h2

/-- C7 witness: on the map `[(0,100),(1/2,50),(1,0)]` the interior knot
query 1/2 returns the knot itself, and the query 1/4 returns the blend of
the first two points, `(1/4, 75)`. -/
theorem interpolate_interior_spec_witness :
    _interpolate [(0, 100), (1/2, 50), (1, 0)] (1/2) = .ok (some ((1/2 : ℚ), (50 : ℚ))) ∧
    _interpolate [(0, 100), (1/2, 50), (1, 0)] (1/4) = .ok (some ((1/4 : ℚ), (75 : ℚ))) := by
  have hs : StrictPos [(0, 100), (1/2, 50), (1, 0)] := by
    simp only [StrictPos, List.pairwise_cons, List.mem_cons, List.mem_singleton]
    norm_num
  have h := interpolate_interior_spec [(0, 100), (1/2, 50), (1, 0)] (1/2) hs (by norm_num)
    (by norm_num [posD]) (by norm_num [posD])
  have h2 := interpolate_interior_spec [(0, 100), (1/2, 50), (1, 0)] (1/4) hs (by norm_num)
    (by norm_num [posD]) (by norm_num [posD])
  constructor
  · exact h.1 ((1/2 : ℚ), (50 : ℚ)) (by norm_num) rfl
  · have hb := h2.2 0 (by norm_num) (by norm_num) (by norm_num)
    rw [hb]
    norm_num [blend]

/-- C8: on a strictly increasing map with at least two points (written
`p0 :: mid ++ [pend]`), `_interpolate` returns no value exactly when the
query is strictly below the first position or strictly above the last,
and a query equal to the first or last position returns that endpoint. -/
theorem interpolate_range_spec (p0 pend : Point) (mid : List Point) (x : ℚ)
    (hs : StrictPos (p0 :: (mid ++ [pend]))) :
    (_interpolate (p0 :: (mid ++ [pend])) x = .ok none ↔ (x < p0.1 ∨ pend.1 < x)) ∧
    (x = p0.1 → _interpolate (p0 :: (mid ++ [pend])) x = .ok (some p0)) ∧
    (x = pend.1 → _interpolate (p0 :: (mid ++ [pend])) x = .ok (some pend)) := by
  have h0e : p0.1 < pend.1 := by
    have := (List.pairwise_cons.mp hs).1 pend (by simp)
    exact this
  have hlast : (p0 :: (mid ++ [pend])).getLastD (0, 0) = pend := by
    rw [← List.cons_append]
    exact List.getLastD_concat (0, 0) pend (p0 :: mid)
  refine ⟨?_, ?_, ?_⟩
  · simp only [_interpolate, List.headD_cons]
    rw [if_neg (by simp : ¬(p0 :: (mid ++ [pend]) = [])), hlast]
    by_cases hg : x < p0.1 ∨ pend.1 < x
    · rw [if_pos hg]
      simp [hg]
    · rw [if_neg hg]
      constructor
      · intro hcontra
        by_cases h1 : x = p0.1
        · rw [if_pos h1] at hcontra
          simp at hcontra
        · rw [if_neg h1] at hcontra
          by_cases h2 : x = pend.1
          · rw [if_pos h2] at hcontra
            simp at hcontra
          · rw [if_neg h2] at hcontra
            simp at hcontra
      · intro hcontra
        exact absurd hcontra hg
  · intro hx
    have hg : ¬ (x < p0.1 ∨ pend.1 < x) := by
      push_neg
      exact ⟨by rw [hx], by rw [hx]; exact le_of_lt h0e⟩
    simp only [_interpolate, List.headD_cons]
    rw [if_neg (by simp : ¬(p0 :: (mid ++ [pend]) = [])), hlast, if_neg hg, if_pos hx]
  · intro hx
    have hg : ¬ (x < p0.1 ∨ pend.1 < x) := by
      push_neg
      exact ⟨by rw [hx]; exact le_of_lt h0e, by rw [hx]⟩
    simp only [_interpolate, List.headD_cons]
    rw [if_neg (by simp : ¬(p0 :: (mid ++ [pend]) = [])), hlast, if_neg hg,
      if_neg (by rw [hx]; exact h0e.ne'), if_pos hx]

/-- C8 witness: on `[(0,100),(1/2,50),(1,0)]` the query 2 is out of range
(Python `None`), the query -1 likewise, and the endpoint queries 0 and 1
return the endpoints. -/
theorem interpolate_range_spec_witness :
    _interpolate [(0, 100), (1/2, 50), (1, 0)] 2 = .ok none ∧
    _interpolate [(0, 100), (1/2, 50), (1, 0)] (-1) = .ok none ∧
    _interpolate [(0, 100), (1/2, 50), (1, 0)] 0 = .ok (some ((0 : ℚ), (100 : ℚ))) ∧
    _interpolate [(0, 100), (1/2, 50), (1, 0)] 1 = .ok (some ((1 : ℚ), (0 : ℚ))) := by
  have hs : StrictPos [(0, 100), (1/2, 50), (1, 0)] := by
    simp only [StrictPos, List.pairwise_cons, List.mem_cons, List.mem_singleton]
    norm_num
  have h2 := interpolate_range_spec (0, 100) (1, 0) [(1/2, 50)] 2 hs
  have hm := interpolate_range_spec (0, 100) (1, 0) [(1/2, 50)] (-1) hs
  have h0 := interpolate_range_spec (0, 100) (1, 0) [(1/2, 50)] 0 hs
  have h1 := interpolate_range_spec (0, 100) (1, 0) [(1/2, 50)] 1 hs
  exact ⟨h2.1.mpr (by norm_num), hm.1.mpr (by norm_num),
    h0.2.1 rfl, h1.2.2 rfl⟩

/- Compensation-engine lemmas. -/

theorem except_bind_ok {ε α β : Type} (x : α) (k : α → Except ε β) :
    ((.ok x : Except ε α) >>= k) = k x := rfl

theorem except_bind_error {ε α β : Type} (e : ε) (k : α → Except ε β) :
    ((.error e : Except ε α) >>= k) = .error e := rfl

theorem mapM_pydiv_ok {α : Type} (f g : α → ℚ) (l : List α) (h : ∀ a ∈ l, g a ≠ 0) :
    l.mapM (fun a => pydiv (f a) (g a)) = .ok (l.map (fun a => f a / g a)) := by
  induction l with
  | nil => rfl
  | cons b t ih =>
    have hb : g b ≠ 0 := h b (by simp)
    have hbo : pydiv (f b) (g b) = .ok (f b / g b) := by simp [pydiv, hb]
    rw [List.mapM_cons, hbo, except_bind_ok, ih (fun a ha => h a (by simp [ha])),
      except_bind_ok]
    rfl

theorem mapM_pydiv_error {α : Type} (f g : α → ℚ) (l : List α) (a : α)
    (ha : a ∈ l) (hz : g a = 0) :
    ∃ e, l.mapM (fun x => pydiv (f x) (g x)) = .error e := by
  induction l with
  | nil => cases ha
  | cons b t ih =>
    rw [List.mapM_cons]
    by_cases hb : g b = 0
    · refine ⟨.zeroDivisionError, ?_⟩
      have : pydiv (f b) (g b) = .error .zeroDivisionError := by simp [pydiv, hb]
      rw [this, except_bind_error]
    · have hbo : pydiv (f b) (g b) = .ok (f b / g b) := by simp [pydiv, hb]
      have hat : a ∈ t := by
        rcases List.mem_cons.mp ha with hh | hh
        · subst hh; exact absurd hz hb
        · exact hh
      obtain ⟨e, he⟩ := ih hat
      exact ⟨e, by rw [hbo, except_bind_ok, he, except_bind_error]⟩

/-- On a strictly increasing map with numeric calibration positions, the
`continue`/`break` loop of the compensation engine computes exactly the
filter-and-rewrite of the points in `[f, lv)`. -/
theorem compensateLoop_num_sorted (f lv tailRem factor cd : ℚ) (l : List Point)
    (hs : StrictPos l) :
    compensateLoop (.num f) (.num lv) tailRem factor cd l =
      .ok ((l.filter (fun p => decide (f ≤ p.1 ∧ p.1 < lv))).map
        (fun p => (p.1, (p.2 - tailRem) * factor + cd))) := by
  induction l with
  | nil => rfl
  | cons p rest ih =>
    obtain ⟨hp, hrest⟩ := List.pairwise_cons.mp hs
    by_cases hskip : p.1 < f
    · have hno : ¬ (f ≤ p.1 ∧ p.1 < lv) := fun hc => absurd hc.1 (not_le.mpr hskip)
      simp only [compensateLoop, List.filter_cons]
      rw [if_neg (by simp : ¬(PyNumOpt.num f = PyNumOpt.absent)),
        if_pos (by simpa using hskip), if_neg (by simpa using hno)]
      exact ih hrest
    · by_cases hbrk : lv ≤ p.1
      · have hfilter : (p :: rest).filter (fun q => decide (f ≤ q.1 ∧ q.1 < lv)) = [] := by
          rw [List.filter_eq_nil_iff]
          intro q hq
          rcases List.mem_cons.mp hq with hh | hh
          · subst hh
            simp only [decide_eq_true_eq, not_and, not_lt]
            intro _
            exact hbrk
          · have hlt : p.1 < q.1 := hp q hh
            simp only [decide_eq_true_eq, not_and, not_lt]
            intro _
            linarith
        rw [hfilter]
        simp only [compensateLoop]
        rw [if_neg (by simp : ¬(PyNumOpt.num f = PyNumOpt.absent)),
          if_neg (by simpa using hskip),
          if_neg (by simp : ¬(PyNumOpt.num lv = PyNumOpt.absent)),
          if_pos (by simpa using hbrk)]
        rfl
      · have hyes : (f ≤ p.1 ∧ p.1 < lv) := ⟨not_lt.mp hskip, not_le.mp hbrk⟩
        simp only [compensateLoop, List.filter_cons]
        rw [if_neg (by simp : ¬(PyNumOpt.num f = PyNumOpt.absent)),
          if_neg (by simpa using hskip),
          if_neg (by simp : ¬(PyNumOpt.num lv = PyNumOpt.absent)),
          if_neg (by simpa using hbrk), ih hrest,
          if_pos (by simpa using hyes)]
        rfl

/-- C2: a history that contains a record with a zero analyzed mid-print
duration makes `compensate_analysis` fall back: it does not crash (it is a
total function) and leaves the analysis, in particular its progress map
and `estimatedPrintTime`, exactly as they were. -/
theorem compensate_degenerate_noop (a : Analysis) (h : List HistoryRecord)
    (r : HistoryRecord) (hr : r ∈ h)
    (hdeg : r.analysisLastFilamentPrintTime = r.analysisFirstFilamentPrintTime) :
    compensate_analysis a h = a := by
  have hne : h ≠ [] := by
    intro hh
    subst hh
    cases hr
  obtain ⟨e, he⟩ := mapM_pydiv_error
    (fun ph => ph.lastFilamentPrintTime - ph.firstFilamentPrintTime)
    (fun ph => ph.analysisLastFilamentPrintTime - ph.analysisFirstFilamentPrintTime)
    h r hr (by
      show r.analysisLastFilamentPrintTime - r.analysisFirstFilamentPrintTime = 0
      rw [hdeg]
      ring)
  simp only [compensate_analysis, compensateCore]
  rw [if_neg hne, he]

/-- C2 witness: a single record with equal analysis calibration times
leaves a four-point analysis untouched. -/
theorem compensate_degenerate_noop_witness :
    compensate_analysis analysisQuad [recDegenerate] = analysisQuad :=
  compensate_degenerate_noop analysisQuad [recDegenerate] recDegenerate (by simp) rfl

/-- C1 (amended): with strictly increasing map positions, numeric
calibration positions both present as map knots and in increasing order,
and a non-empty history of records whose analyzed mid-print durations are
all nonzero, `compensate_analysis` rewrites the analysis exactly as the
claim describes: points in `[firstFilament, lastFilament)` are rewritten
by `(value - tailRemaining) * avgScale + avgCoolDown`, all other points
dropped, `(0, firstKeptValue + avgHeatUp)` prepended, `(1, 0)` appended,
and `estimatedPrintTime` becomes the new first point value. -/
theorem compensate_rewrites_map (a : Analysis) (h : List HistoryRecord) (f lv vl : ℚ)
    (hs : StrictPos a.progress)
    (hf : a.firstFilament = .num f) (hl : a.lastFilament = .num lv)
    (hfm : ∃ v, (f, v) ∈ a.progress) (hlm : (lv, vl) ∈ a.progress)
    (hfl : f < lv) (hne : h ≠ [])
    (hden : ∀ r ∈ h, r.analysisLastFilamentPrintTime ≠ r.analysisFirstFilamentPrintTime) :
    compensate_analysis a h =
      { a with progress := claimNewProgress a.progress h f lv vl,
               estimatedPrintTime :=
                 ((claimNewProgress a.progress h f lv vl).headD (0, 0)).2 } := by
  have hmapM := mapM_pydiv_ok
    (fun ph => ph.lastFilamentPrintTime - ph.firstFilamentPrintTime)
    (fun ph => ph.analysisLastFilamentPrintTime - ph.analysisFirstFilamentPrintTime) h
    (fun r hr => sub_ne_zero_of_ne (hden r hr))
  have hinterp : _interpolate a.progress lv = .ok (some (lv, vl)) :=
    interpolate_mem a.progress hs (lv, vl) hlm
  have hloop := compensateLoop_num_sorted f lv vl (avgScale h) (avgCoolDown h) a.progress hs
  obtain ⟨v, hv⟩ := hfm
  have hkeep : (f, v) ∈ a.progress.filter (fun p => decide (f ≤ p.1 ∧ p.1 < lv)) := by
    rw [List.mem_filter]
    refine ⟨hv, by simp [hfl]⟩
  have hkne : (a.progress.filter (fun p => decide (f ≤ p.1 ∧ p.1 < lv))).map
      (fun p => (p.1, (p.2 - vl) * avgScale h + avgCoolDown h)) ≠ [] := by
    intro hc
    rw [List.map_eq_nil] at hc
    rw [hc] at hkeep
    cases hkeep
  obtain ⟨q, qs, hqs⟩ := List.exists_cons_of_ne_nil hkne
  simp only [avgScale, avgCoolDown, avgHeatUp] at hloop hqs
  simp only [compensate_analysis, compensateCore, hne, if_false, hmapM, hl, hf, hinterp,
    hloop, hqs, claimNewProgress, avgScale, avgCoolDown, avgHeatUp, List.headD_cons]
  simp

/-- C1 counterexample: when the two calibration positions coincide (both
present in the map) every original point is dropped, the engine hits the
IndexError on the empty rewritten list and falls back, leaving the
analysis unchanged — while the rewrite described by the claim would have
produced a different map. -/
theorem compensate_rewrites_map_counterexample :
    compensate_analysis analysisPinch [recGood] = analysisPinch ∧
    analysisPinch.progress ≠ claimNewProgress analysisPinch.progress [recGood] (1/2) (1/2) 50 := by
  constructor
  · norm_num [compensate_analysis, compensateCore, analysisPinch, recGood, pydiv,
      List.mapM, List.mapM.loop, except_bind_ok, _interpolate, bisect_right, bisectGo,
      compensateLoop]
    simp
  · norm_num [claimNewProgress, analysisPinch, avgScale, avgCoolDown, avgHeatUp, recGood]

/-- C1 witness: on a four-point map with knots at 1/4 and 3/4 and one
well-formed history record, the engine produces exactly the claimed
rewrite. -/
theorem compensate_rewrites_map_witness :
    compensate_analysis analysisQuad [recGood] =
      { analysisQuad with
        progress := claimNewProgress analysisQuad.progress [recGood] (1/4) (3/4) 25,
        estimatedPrintTime :=
          ((claimNewProgress analysisQuad.progress [recGood] (1/4) (3/4) 25).headD (0, 0)).2 } := by
  refine compensate_rewrites_map analysisQuad [recGood] (1/4) (3/4) 25 ?_ rfl rfl ?_ ?_
    (by norm_num) (by simp) ?_
  · simp only [StrictPos, analysisQuad, List.pairwise_cons, List.mem_cons, List.mem_singleton]
    norm_num
  · exact ⟨75, by norm_num [analysisQuad]⟩
  · norm_num [analysisQuad]
  · intro r hr
    have : r = recGood := by simpa using hr
    subst this
    norm_num [recGood]

/- Live-estimator lemmas and claims. -/

/-- C3: `estimate` is a total function, and whenever the genius estimation
raises an exception, the result reported for that tick is exactly the
default (baseline) estimator result. -/
theorem estimate_default_of_error (analysis? : Option Analysis) (s : EstimatorState)
    (progress printTime : ℚ) (default_result : Option (ℚ × String)) (e : PyErr)
    (herr : (geniusEstimate analysis? s progress printTime).2 = .error e) :
    (estimate analysis? s progress printTime default_result).2 = default_result := by
  unfold estimate
  rcases hg : geniusEstimate analysis? s progress printTime with ⟨s2, r⟩
  rw [hg] at herr
  simp only at herr
  subst herr
  simp

/-- C3 witness: an analysis dict with a progress map but no
`firstFilament` key makes `_genius_estimate` raise a KeyError on the
first tick; `estimate` still reports the baseline result. -/
theorem estimate_default_of_error_witness :
    (geniusEstimate (some analysisNoFF) initState (1/2) 7).2 = .error .keyError ∧
    (estimate (some analysisNoFF) initState (1/2) 7 (some (42, "estimate"))).2 =
      some (42, "estimate") := by
  have h1 : (geniusEstimate (some analysisNoFF) initState (1/2) 7).2 = .error .keyError := by
    norm_num [geniusEstimate, analysisNoFF, initState, advanceIndex, advanceLoop]
  exact ⟨h1, estimate_default_of_error (some analysisNoFF) initState (1/2) 7
    (some (42, "estimate")) .keyError h1⟩

/-- C10: the reported genius remaining time is not clamped at zero.  On
the two-point map the first tick anchors the total estimate at 100; a
later tick at elapsed time 150 with no cursor advance reports
`100 - 150 = -50`, strictly negative. -/
theorem genius_negative_remaining :
    ((estimate (some analysisDuo) initState 0 0 none).1).current_total_printTime = some 100 ∧
    (estimate (some analysisDuo)
        ((estimate (some analysisDuo) initState 0 0 none).1) (1/2) 150 none).2 =
      some (-50, "genius") ∧
    ((-50 : ℚ) = 100 - 150 ∧ (-50 : ℚ) < 0) := by
  norm_num [estimate, geniusEstimate, analysisDuo, initState, advanceIndex, advanceLoop,
    _interpolate, bisect_right, bisectGo]
  simp
  norm_num

/-- C4 (amended): a complete per-tick characterization of the stored
`lastFilamentPrintTime` for an analysis with numeric calibration
positions.  On a tick, the estimator sets the field to that tick's
elapsed time if and only if the cursor index advances on the tick and
the field is still unset or the tick's effective progress is at most
`lastFilament`; every other tick — in particular every tick on which the
cursor does not advance — leaves the stored value unchanged. -/
theorem genius_sets_lastFilament (a : Analysis) (s : EstimatorState) (p t ff lf : ℚ)
    (hf : a.firstFilament = .num ff) (hl : a.lastFilament = .num lf) :
    ((geniusEstimate (some a) s p t).1).current_history.lastFilamentPrintTime =
      if (0 ≤ advanceIndex a.progress (if s.called_genius_yet then p else 0)
            s.current_progress_index ∧
          advanceIndex a.progress (if s.called_genius_yet then p else 0)
            s.current_progress_index ≠ s.current_progress_index) ∧
          (s.current_history.lastFilamentPrintTime = none ∨
            (if s.called_genius_yet then p else 0) ≤ lf)
      then some t
      else s.current_history.lastFilamentPrintTime := by
  simp only [geniusEstimate]
  by_cases hneg : advanceIndex a.progress (if s.called_genius_yet then p else 0)
      s.current_progress_index < 0
  · rw [if_pos hneg, if_neg (fun hc => absurd hc.1.1 (not_le.mpr hneg))]
  · by_cases hsame : advanceIndex a.progress (if s.called_genius_yet then p else 0)
        s.current_progress_index = s.current_progress_index
    · rw [if_neg hneg, if_pos hsame, if_neg (fun hc => hc.1.2 hsame)]
      split
      · rfl
      · rfl
    · rw [if_neg hneg, if_neg hsame, hf,
        if_neg (by simp : ¬(PyNumOpt.num ff = PyNumOpt.absent))]
      have hge : 0 ≤ advanceIndex a.progress (if s.called_genius_yet then p else 0)
          s.current_progress_index := not_lt.mp hneg
      by_cases hnone : s.current_history.lastFilamentPrintTime = none
      · rw [if_pos (by simpa using hnone)]
        split
        · simp_all
        · rename_i b heq
          simp only [Except.ok.injEq] at heq
          subst heq
          split <;> simp_all
      · rw [if_neg (by simpa using hnone), hl]
        by_cases hple : (if s.called_genius_yet then p else 0) ≤ lf
        · simp only [decide_eq_true hple]
          split <;> simp_all
        · simp only [decide_eq_false hple]
          split <;> (simp_all; rw [if_neg (not_le.mpr hple)])

/-- C4 witness: from the state with cursor index 0 and stored
`lastFilamentPrintTime` 3, a cursor-advancing tick at progress 1/2
(at most `lastFilament` = 9/10) with elapsed time 5 overwrites the field
to 5, while a non-advancing tick at progress 1/4 with elapsed time 10
leaves the stored value 3 unchanged. -/
theorem genius_sets_lastFilament_witness :
    ((geniusEstimate (some analysisTri)
        { called_genius_yet := true, current_progress_index := 0,
          current_total_printTime := some 105,
          current_history := { firstFilamentPrintTime := some 2, lastFilamentPrintTime := some 3 } }
        (1/2) 5).1).current_history.lastFilamentPrintTime = some 5 ∧
    ((geniusEstimate (some analysisTri)
        { called_genius_yet := true, current_progress_index := 0,
          current_total_printTime := some 105,
          current_history := { firstFilamentPrintTime := some 2, lastFilamentPrintTime := some 3 } }
        (1/4) 10).1).current_history.lastFilamentPrintTime = some 3 := by
  constructor
  · rw [genius_sets_lastFilament analysisTri _ (1/2) 5 (1/10) (9/10) rfl rfl]
    norm_num [advanceIndex, advanceLoop, analysisTri, Int.toNat_ofNat]
    split <;> norm_num
  · rw [genius_sets_lastFilament analysisTri _ (1/4) 10 (1/10) (9/10) rfl rfl]
    norm_num [advanceIndex, advanceLoop, analysisTri, Int.toNat_ofNat]

/-- C4 counterexample: after a first tick (elapsed 5) that advances the
cursor, a second tick at progress 1/4 — which satisfies
`progress ≤ lastFilament = 9/10` — does not advance the cursor, and the
stored `lastFilamentPrintTime` stays 5 instead of being overwritten with
the tick's elapsed time 10 as the claim requires. -/
theorem genius_lastFilament_stale :
    ((1 : ℚ)/4 ≤ 9/10) ∧
    (runTicks (some analysisTri) none initState
        [(1/20, 5), (1/4, 10)]).current_history.lastFilamentPrintTime = some 5 ∧
    some (5 : ℚ) ≠ some (10 : ℚ) := by
  refine ⟨by norm_num, ?_, by norm_num⟩
  norm_num [runTicks, estimate, geniusEstimate, analysisTri, initState, advanceIndex,
    advanceLoop, _interpolate, bisect_right, bisectGo, List.foldl]
  simp
  norm_num

/- Trace-scan and builder lemmas. -/

theorem scanStep_pairs (st : ScanState) (smp : Sample) :
    (scanStep st smp).progressPairs = st.progressPairs ++ [(smp.filepos, smp.time)] := by
  simp only [scanStep]
  split <;> split <;> rfl

theorem foldl_scanStep_pairs_length (samples : List Sample) :
    ∀ (st : ScanState),
    (samples.foldl scanStep st).progressPairs.length =
      st.progressPairs.length + samples.length := by
  induction samples with
  | nil =>
    intro st
    simp
  | cons smp rest ih =>
    intro st
    simp only [List.foldl_cons]
    rw [ih, scanStep_pairs]
    simp only [List.length_append, List.length_cons, List.length_nil]
    omega

theorem scanSamples_pairs_ne_nil (samples : List Sample) (h : samples ≠ []) :
    (scanSamples samples).progressPairs ≠ [] := by
  intro hc
  have hlen := foldl_scanStep_pairs_length samples
    { first_filament := none, last_filament := none, max_filament := none, progressPairs := [] }
  rw [show samples.foldl scanStep
      { first_filament := none, last_filament := none, max_filament := none,
        progressPairs := [] } = scanSamples samples from rfl, hc] at hlen
  simp at hlen
  exact h (List.length_eq_zero.mp hlen.symm)

theorem buildLoop_eq_specEmit (total : ℚ) (ff lf : Option ℚ) (pairs : List (ℚ × ℚ)) :
    ∀ (mrp : Option ℚ),
    buildLoop total ff lf mrp pairs =
      (specEmit ff lf mrp pairs).map (fun q => (q.1, total - q.2)) := by
  induction pairs with
  | nil =>
    intro mrp
    rfl
  | cons q rest ih =>
    intro mrp
    rcases q with ⟨pos, tm⟩
    cases mrp with
    | none =>
      simp only [buildLoop, specEmit, Bool.true_or]
      rw [if_pos trivial, if_pos trivial, ih (some tm)]
      rfl
    | some m =>
      have hcond : decide (m + 60 < tm) = decide (60 < tm - m) := by
        simp only [decide_eq_decide]
        constructor <;> intro h <;> linarith
      simp only [buildLoop, specEmit, hcond]
      by_cases hor : (decide (60 < tm - m) ||
          decide (some pos = ff) || decide (some pos = lf)) = true
      · rw [if_pos hor, if_pos hor, ih (some tm)]
        rfl
      · rw [if_neg hor, if_neg hor, ih (some m)]

theorem specEmit_mem_calib (ff lf : Option ℚ) (pairs : List (ℚ × ℚ)) :
    ∀ (mrp : Option ℚ) (q : ℚ × ℚ), q ∈ pairs →
    (some q.1 = ff ∨ some q.1 = lf) → q ∈ specEmit ff lf mrp pairs := by
  induction pairs with
  | nil =>
    intro _ q hq _
    cases hq
  | cons p rest ih =>
    intro mrp q hq hcal
    rcases p with ⟨pos, tm⟩
    rcases List.mem_cons.mp hq with hh | hh
    · subst hh
      have hc : ((match mrp with | none => true | some m => decide (60 < tm - m)) ||
          decide (some pos = ff) || decide (some pos = lf)) = true := by
        rcases hcal with h | h <;> simp_all
      simp only [specEmit]
      rw [if_pos hc]
      exact List.mem_cons_self _ _
    · simp only [specEmit]
      split
      · exact List.mem_cons_of_mem _ (ih (some tm) q hh hcal)
      · exact ih mrp q hh hcal

/-- C5 (amended): for every non-empty parsed trace, the builder output
starts with `(0, totalTime)`, ends with `(1, 0)`, and its interior is
exactly the samples selected by the emission filter — strictly more than
60 seconds of elapsed time since the last emitted sample, or a position
equal to `firstFilament` or `lastFilament` — mapped to
`(position, totalTime - elapsedTime)`; every sample at a calibration
position is present verbatim. -/
theorem analyzeMain_structure (samples : List Sample) (hne : samples ≠ []) :
    analyzeMain samples = .ok
      { firstFilament := (scanSamples samples).first_filament
        lastFilament := (scanSamples samples).last_filament
        progress := ((0 : ℚ), totalOf samples) ::
          (specEmit (scanSamples samples).first_filament (scanSamples samples).last_filament
            none (scanSamples samples).progressPairs).map
              (fun q => (q.1, totalOf samples - q.2)) ++ [((1 : ℚ), (0 : ℚ))]
        estimatedPrintTime := totalOf samples } ∧
    (((0 : ℚ), totalOf samples) ::
        (specEmit (scanSamples samples).first_filament (scanSamples samples).last_filament
          none (scanSamples samples).progressPairs).map
            (fun q => (q.1, totalOf samples - q.2)) ++
        [((1 : ℚ), (0 : ℚ))]).getLast? = some ((1 : ℚ), (0 : ℚ)) ∧
    (∀ q ∈ (scanSamples samples).progressPairs,
      (some q.1 = (scanSamples samples).first_filament ∨
        some q.1 = (scanSamples samples).last_filament) →
      (q.1, totalOf samples - q.2) ∈
        ((0 : ℚ), totalOf samples) ::
          (specEmit (scanSamples samples).first_filament (scanSamples samples).last_filament
            none (scanSamples samples).progressPairs).map
              (fun q => (q.1, totalOf samples - q.2)) ++ [((1 : ℚ), (0 : ℚ))]) := by
  have hpne : (scanSamples samples).progressPairs ≠ [] := scanSamples_pairs_ne_nil samples hne
  refine ⟨?_, List.getLast?_concat _, ?_⟩
  · cases hgl : (scanSamples samples).progressPairs.getLast? with
    | none => exact absurd (List.getLast?_eq_none.mp hgl) hpne
    | some y =>
      have htot : totalOf samples = y.2 := by
        rw [totalOf, List.getLastD_eq_getLast?, hgl]
        rfl
      simp only [analyzeMain]
      rw [hgl, htot]
      simp only [buildLoop_eq_specEmit]
  · intro q hq hcal
    refine List.mem_append_left _ (List.mem_cons_of_mem _ ?_)
    exact List.mem_map_of_mem _ (specEmit_mem_calib _ _ _ none q hq hcal)

/-- C5 counterexample: the trace sample at elapsed time 60 — exactly 60
seconds after the previously emitted sample at elapsed time 0, and at
neither calibration position — is NOT emitted (the code requires strictly
more than 60 seconds), although the claim ("at least 60 seconds") says it
must be; the builder output skips position 1/5 entirely. -/
theorem analyzeMain_sixty_boundary :
    analyzeMain [{ filepos := 1/10, filament := 1, time := 0 },
        { filepos := 1/5, filament := 2, time := 60 },
        { filepos := 3/10, filament := 3, time := 200 }] =
      .ok { firstFilament := some (1/10), lastFilament := some (3/10),
            progress := [(0, 200), (1/10, 200), (3/10, 0), (1, 0)],
            estimatedPrintTime := 200 } ∧
    (((1 : ℚ)/5, (140 : ℚ)) ∈
        [((0 : ℚ), (200 : ℚ)), (1/10, 200), (3/10, 0), (1, 0)]) = False := by
  constructor
  · norm_num [analyzeMain, scanSamples, scanStep, pyFalsy, List.foldl, buildLoop]
  · norm_num

/-- C5 witness: a one-sample trace (sample at position 1/10, elapsed 0)
produces `[(0,0),(1/10,0),(1,0)]` with both calibration positions 1/10. -/
theorem analyzeMain_structure_witness :
    analyzeMain [{ filepos := 1/10, filament := 1, time := 0 }] =
      .ok { firstFilament := some (1/10), lastFilament := some (1/10),
            progress := [(0, 0), (1/10, 0), (1, 0)],
            estimatedPrintTime := 0 } := by
  have h := (analyzeMain_structure [{ filepos := 1/10, filament := 1, time := 0 }]
    (by simp)).1
  rw [h]
  norm_num [scanSamples, scanStep, pyFalsy, List.foldl, specEmit, totalOf]

/-- C6 (code bug): the scan guard `not first_filament` treats a stored
position 0.0 as unset, so when extrusion starts at position 0 the next
extruding sample overwrites it: the first sample with cumulative filament
strictly greater than 0 sits at position 0, yet the scan reports
firstFilament 1/2. -/
theorem scan_firstFilament_zero_position :
    ((List.find? (fun smp => decide (0 < smp.filament))
        [({ filepos := 0, filament := 5, time := 10 } : Sample),
          { filepos := 1/2, filament := 6, time := 20 }]).map Sample.filepos) = some 0 ∧
    (scanSamples [({ filepos := 0, filament := 5, time := 10 } : Sample),
        { filepos := 1/2, filament := 6, time := 20 }]).first_filament = some (1/2) ∧
    ((1 : ℚ)/2 ≠ 0) := by
  refine ⟨?_, ?_, by norm_num⟩
  · norm_num [List.find?]
  · norm_num [scanSamples, scanStep, pyFalsy, List.foldl]

/-- C9: after a print-completion append, the persisted history holds at
most 5 records and is ordered most-recent-first by timestamp; the kept
list followed by the evicted records is exactly the descending re-sort of
the old history plus the new record, and that re-sort is a permutation of
it (so the evicted records are exactly those beyond the first 5). -/
theorem onPrintDone_spec (print_history : List HistoryRecord) (newRecord : HistoryRecord) :
    (onPrintDone print_history newRecord).length ≤ 5 ∧
    (onPrintDone print_history newRecord).Pairwise
      (fun x y => y.timestamp ≤ x.timestamp) ∧
    ((print_history ++ [newRecord]).mergeSort histLe).Perm (print_history ++ [newRecord]) ∧
    onPrintDone print_history newRecord ++
        ((print_history ++ [newRecord]).mergeSort histLe).drop 5 =
      (print_history ++ [newRecord]).mergeSort histLe := by
  refine ⟨?_, ?_, List.mergeSort_perm _ _, List.take_append_drop 5 _⟩
  · simp only [onPrintDone, List.length_take]
    omega
  · have htrans : ∀ (a b c : HistoryRecord),
        histLe a b = true → histLe b c = true → histLe a c = true := by
      intro a b c hab hbc
      simp only [histLe, decide_eq_true_eq] at hab hbc ⊢
      linarith
    have htotal : ∀ (a b : HistoryRecord), (histLe a b || histLe b a) = true := by
      intro a b
      simp only [histLe, Bool.or_eq_true, decide_eq_true_eq]
      exact le_total _ _
    have hs := List.sorted_mergeSort htrans htotal (print_history ++ [newRecord])
    have hsub : (onPrintDone print_history newRecord).Sublist
        ((print_history ++ [newRecord]).mergeSort histLe) := List.take_sublist _ _
    refine (List.Pairwise.sublist hsub hs).imp ?_
    intro x y hxy
    simpa [histLe] using hxy

end PrintTimeGenius
